import Mathlib

/-!
Verification of the alignment & scoring engine of `evaluate_pipeline.py`
(watson-stt-comparison).  The Python source is shallowly embedded:

* the dynamic-programming cost table `dp` built at lines 112-118;
* the backtrace loop at lines 120-151 producing the alignment trace;
* `compute_measures_local` (lines 104-162) returning counts and WER;
* `build_reference_map` (lines 24-50), `collect_hypotheses_by_model`
  (lines 52-97), `read_tokens` (lines 99-102) and the per-pair loop of
  `main` (lines 218-237).

Machine floats (`wer`) are modelled as rationals; filenames are modelled
as Lean `String`s with character-list operations matching Python string
semantics (Python strings are character sequences).
-/

namespace EvaluatePipeline

/-- Operation tags of the alignment trace: `"OK"`, `"S"`, `"I"`, `"D"`. -/
inductive Tag where
  | OK
  | S
  | I
  | D
deriving DecidableEq, Repr

/-- One alignment entry `(ref_token, hyp_token, op)` as appended by the
backtrace loop; a missing side is the empty string, exactly as in the
source (`("", h[j-1], "I")`, `(r[i-1], "", "D")`). -/
structure Op where
  refTok : String
  hypTok : String
  tag : Tag
deriving DecidableEq, Repr

/-- Row `i+1` of the cost table, given row `i` as the function `f`:
`dp[i+1][0] = i+1` (line 113) and
`dp[i+1][j+1] = min(dp[i][j+1]+1, dp[i+1][j]+1, dp[i][j] + cost)` with
`cost = 0 if r[i] == h[j] else 1` (lines 115-118, shifted indices). -/
def dpRow (r h : List String) (i : Nat) (f : Nat → Nat) : Nat → Nat
  | 0 => i + 1
  | j + 1 =>
    min (f (j + 1) + 1)
      (min (dpRow r h i f j + 1)
        (f j + (if r.getD i "" = h.getD j "" then 0 else 1)))

/-- The cost table of `compute_measures_local` (lines 112-118):
`dp r h i j` is the Python `dp[i][j]`.  Row `0` is `dp[0][j] = j`
(line 114); row `i+1` is built from row `i` by `dpRow`. -/
def dp (r h : List String) : Nat → Nat → Nat
  | 0 => fun j => j
  | i + 1 => dpRow r h i (dp r h i)

theorem dp_zero_row (r h : List String) (j : Nat) : dp r h 0 j = j := rfl

theorem dp_col_zero (r h : List String) (i : Nat) : dp r h i 0 = i := by
  cases i <;> rfl

theorem dp_succ_succ (r h : List String) (i j : Nat) :
    dp r h (i + 1) (j + 1) =
      min (dp r h i (j + 1) + 1)
        (min (dp r h (i + 1) j + 1)
          (dp r h i j + (if r.getD i "" = h.getD j "" then 0 else 1))) := rfl

theorem dp_le_del (r h : List String) (i j : Nat) (hi : 0 < i) :
    dp r h i j ≤ dp r h (i - 1) j + 1 := by
  obtain ⟨i', rfl⟩ : ∃ i', i = i' + 1 := ⟨i - 1, by omega⟩
  cases j with
  | zero => simp [dp_col_zero]
  | succ j' =>
    rw [dp_succ_succ]
    simp only [Nat.add_sub_cancel]
    exact min_le_left _ _

theorem dp_le_ins (r h : List String) (i j : Nat) (hj : 0 < j) :
    dp r h i j ≤ dp r h i (j - 1) + 1 := by
  obtain ⟨j', rfl⟩ : ∃ j', j = j' + 1 := ⟨j - 1, by omega⟩
  cases i with
  | zero => simp [dp_zero_row]
  | succ i' =>
    rw [dp_succ_succ]
    simp only [Nat.add_sub_cancel]
    exact le_trans (min_le_right _ _) (min_le_left _ _)

theorem dp_le_diag (r h : List String) (i j : Nat) (hi : 0 < i) (hj : 0 < j) :
    dp r h i j ≤
      dp r h (i - 1) (j - 1) +
        (if r.getD (i - 1) "" = h.getD (j - 1) "" then 0 else 1) := by
  obtain ⟨i', rfl⟩ : ∃ i', i = i' + 1 := ⟨i - 1, by omega⟩
  obtain ⟨j', rfl⟩ : ∃ j', j = j' + 1 := ⟨j - 1, by omega⟩
  rw [dp_succ_succ]
  simp only [Nat.add_sub_cancel]
  exact le_trans (min_le_right _ _) (min_le_right _ _)

theorem dp_le_sub (r h : List String) (i j : Nat) (hi : 0 < i) (hj : 0 < j) :
    dp r h i j ≤ dp r h (i - 1) (j - 1) + 1 := by
  refine le_trans (dp_le_diag r h i j hi hj) ?_
  split <;> omega

/-- Coverage of the backtrace branches: away from the origin, the cell
`dp[i][j]` is realised by at least one of the four primary moves tested
at lines 125-143, so the safety fallback (lines 144-149) never fires. -/
theorem dp_coverage (r h : List String) (i j : Nat) (hij : 0 < i ∨ 0 < j) :
    (0 < i ∧ 0 < j ∧ dp r h i j = dp r h (i - 1) (j - 1) ∧
        r.getD (i - 1) "" = h.getD (j - 1) "") ∨
    (0 < j ∧ dp r h i j = dp r h i (j - 1) + 1) ∨
    (0 < i ∧ dp r h i j = dp r h (i - 1) j + 1) ∨
    (0 < i ∧ 0 < j ∧ dp r h i j = dp r h (i - 1) (j - 1) + 1) := by
  cases i with
  | zero =>
    cases j with
    | zero => omega
    | succ j' =>
      refine Or.inr (Or.inl ⟨Nat.succ_pos _, ?_⟩)
      simp [dp_zero_row]
  | succ i' =>
    cases j with
    | zero =>
      refine Or.inr (Or.inr (Or.inl ⟨Nat.succ_pos _, ?_⟩))
      simp [dp_col_zero]
    | succ j' =>
      have hrec := dp_succ_succ r h i' j'
      simp only [Nat.succ_sub_one]
      by_cases htok : r.getD i' "" = h.getD j' ""
      · rw [if_pos htok] at hrec
        rcases Nat.lt_or_ge (dp r h i' j') (min (dp r h i' (j' + 1) + 1) (dp r h (i' + 1) j' + 1))
          with hlt | hge
        · exact Or.inl ⟨Nat.succ_pos _, Nat.succ_pos _, by omega, htok⟩
        · rcases le_total (dp r h i' (j' + 1)) (dp r h (i' + 1) j') with hab | hab
          · exact Or.inr (Or.inr (Or.inl ⟨Nat.succ_pos _, by omega⟩))
          · exact Or.inr (Or.inl ⟨Nat.succ_pos _, by omega⟩)
      · rw [if_neg htok] at hrec
        rcases le_total (dp r h i' j' + 1) (min (dp r h i' (j' + 1) + 1) (dp r h (i' + 1) j' + 1))
          with hle | hge
        · exact Or.inr (Or.inr (Or.inr ⟨Nat.succ_pos _, Nat.succ_pos _, by omega⟩))
        · rcases le_total (dp r h i' (j' + 1)) (dp r h (i' + 1) j') with hab | hab
          · exact Or.inr (Or.inr (Or.inl ⟨Nat.succ_pos _, by omega⟩))
          · exact Or.inr (Or.inl ⟨Nat.succ_pos _, by omega⟩)

/-- Body of the backtrace `while i > 0 or j > 0` loop (lines 120-151),
with an explicit fuel argument as the termination measure; `i + j` fuel
suffices because every iteration decreases `i + j` (proved below).  The
loop appends operations while walking backward and reverses the list at
the end (line 151); here the recursion appends after the recursive call,
which yields the same forward-ordered trace.  The branch conditions and
their order are verbatim from lines 125-149. -/
def backtraceAux (r h : List String) : Nat → Nat → Nat → List Op
  | 0, _, _ => []
  | fuel + 1, i, j =>
    if i = 0 ∧ j = 0 then []
    else if 0 < i ∧ 0 < j ∧ dp r h i j = dp r h (i - 1) (j - 1) ∧
        r.getD (i - 1) "" = h.getD (j - 1) "" then
      backtraceAux r h fuel (i - 1) (j - 1) ++
        [⟨r.getD (i - 1) "", h.getD (j - 1) "", Tag.OK⟩]
    else if 0 < j ∧ dp r h i j = dp r h i (j - 1) + 1 then
      backtraceAux r h fuel i (j - 1) ++ [⟨"", h.getD (j - 1) "", Tag.I⟩]
    else if 0 < i ∧ dp r h i j = dp r h (i - 1) j + 1 then
      backtraceAux r h fuel (i - 1) j ++ [⟨r.getD (i - 1) "", "", Tag.D⟩]
    else if 0 < i ∧ 0 < j ∧ dp r h i j = dp r h (i - 1) (j - 1) + 1 then
      backtraceAux r h fuel (i - 1) (j - 1) ++
        [⟨r.getD (i - 1) "", h.getD (j - 1) "", Tag.S⟩]
    else if 0 < i then
      backtraceAux r h fuel (i - 1) j ++ [⟨r.getD (i - 1) "", "", Tag.D⟩]
    else
      backtraceAux r h fuel i (j - 1) ++ [⟨"", h.getD (j - 1) "", Tag.I⟩]

/-- The alignment trace produced by the backtrace loop started at cell
`(i, j)` (in the source, at `(n, m)`). -/
def backtrace (r h : List String) (i j : Nat) : List Op :=
  backtraceAux r h (i + j) i j

/-- Any fuel of at least `i + j` computes the same trace: the loop
terminates within `i + j` iterations. -/
theorem backtraceAux_fuel (r h : List String) :
    ∀ f₁ f₂ i j, i + j ≤ f₁ → i + j ≤ f₂ →
      backtraceAux r h f₁ i j = backtraceAux r h f₂ i j := by
  intro f₁
  induction f₁ with
  | zero =>
    intro f₂ i j h1 h2
    have hi : i = 0 := by omega
    have hj : j = 0 := by omega
    subst hi; subst hj
    cases f₂ with
    | zero => rfl
    | succ f₂' => simp [backtraceAux]
  | succ f₁' ih =>
    intro f₂ i j h1 h2
    cases f₂ with
    | zero =>
      have hi : i = 0 := by omega
      have hj : j = 0 := by omega
      subst hi; subst hj
      simp [backtraceAux]
    | succ f₂' =>
      by_cases h0 : i = 0 ∧ j = 0
      · simp [backtraceAux, h0]
      · rw [backtraceAux, backtraceAux, if_neg h0, if_neg h0]
        split
        · rename_i hc
          rw [ih f₂' (i - 1) (j - 1) (by omega) (by omega)]
        · split
          · rename_i hc
            rw [ih f₂' i (j - 1) (by omega) (by omega)]
          · split
            · rename_i hc
              rw [ih f₂' (i - 1) j (by omega) (by omega)]
            · split
              · rename_i hc
                rw [ih f₂' (i - 1) (j - 1) (by omega) (by omega)]
              · split
                · rename_i hc
                  rw [ih f₂' (i - 1) j (by omega) (by omega)]
                · rename_i hc1 hc2 hc3 hc4 hc5
                  have hj : 0 < j := by omega
                  rw [ih f₂' i (j - 1) (by omega) (by omega)]

/-- One unfolding of the backtrace loop away from the origin, with the
recursive occurrences re-expressed through `backtrace` itself. -/
theorem backtrace_step (r h : List String) (i j : Nat) (hij : 0 < i ∨ 0 < j) :
    backtrace r h i j =
      if 0 < i ∧ 0 < j ∧ dp r h i j = dp r h (i - 1) (j - 1) ∧
          r.getD (i - 1) "" = h.getD (j - 1) "" then
        backtrace r h (i - 1) (j - 1) ++
          [⟨r.getD (i - 1) "", h.getD (j - 1) "", Tag.OK⟩]
      else if 0 < j ∧ dp r h i j = dp r h i (j - 1) + 1 then
        backtrace r h i (j - 1) ++ [⟨"", h.getD (j - 1) "", Tag.I⟩]
      else if 0 < i ∧ dp r h i j = dp r h (i - 1) j + 1 then
        backtrace r h (i - 1) j ++ [⟨r.getD (i - 1) "", "", Tag.D⟩]
      else if 0 < i ∧ 0 < j ∧ dp r h i j = dp r h (i - 1) (j - 1) + 1 then
        backtrace r h (i - 1) (j - 1) ++
          [⟨r.getD (i - 1) "", h.getD (j - 1) "", Tag.S⟩]
      else if 0 < i then
        backtrace r h (i - 1) j ++ [⟨r.getD (i - 1) "", "", Tag.D⟩]
      else
        backtrace r h i (j - 1) ++ [⟨"", h.getD (j - 1) "", Tag.I⟩] := by
  have hpos : 0 < i + j := by omega
  obtain ⟨f, hf⟩ : ∃ f, i + j = f + 1 := ⟨i + j - 1, by omega⟩
  unfold backtrace
  rw [hf, backtraceAux, if_neg (by omega)]
  split
  · rename_i hc
    rw [backtraceAux_fuel r h f ((i - 1) + (j - 1)) (i - 1) (j - 1) (by omega) (by omega)]
  · split
    · rename_i hc
      rw [backtraceAux_fuel r h f (i + (j - 1)) i (j - 1) (by omega) (by omega)]
    · split
      · rename_i hc
        rw [backtraceAux_fuel r h f ((i - 1) + j) (i - 1) j (by omega) (by omega)]
      · split
        · rename_i hc
          rw [backtraceAux_fuel r h f ((i - 1) + (j - 1)) (i - 1) (j - 1) (by omega) (by omega)]
        · split
          · rename_i hc
            rw [backtraceAux_fuel r h f ((i - 1) + j) (i - 1) j (by omega) (by omega)]
          · rename_i hc1 hc2 hc3 hc4 hc5
            have hj : 0 < j := by omega
            rw [backtraceAux_fuel r h f (i + (j - 1)) i (j - 1) (by omega) (by omega)]

theorem backtrace_zero_zero (r h : List String) : backtrace r h 0 0 = [] := rfl

/-- Reference-side contribution of one trace entry: every operation
except an insertion carries a reference token. -/
def opRefSide (o : Op) : List String := if o.tag = Tag.I then [] else [o.refTok]

/-- Hypothesis-side contribution of one trace entry: every operation
except a deletion carries a hypothesis token. -/
def opHypSide (o : Op) : List String := if o.tag = Tag.D then [] else [o.hypTok]

/-- Replay of the trace keeping reference-side tokens (skipping insertions). -/
def refSide (t : List Op) : List String := (t.map opRefSide).flatten

/-- Replay of the trace keeping hypothesis-side tokens (skipping deletions). -/
def hypSide (t : List Op) : List String := (t.map opHypSide).flatten

/-- Unit cost of an edit operation: matches are free, substitutions,
insertions and deletions cost one each. -/
def opCost (o : Op) : Nat := if o.tag = Tag.OK then 0 else 1

/-- Total edit cost of a trace. -/
def traceCost (t : List Op) : Nat := (t.map opCost).sum

/-- Number of operations of a given tag in a trace. -/
def countTag (tg : Tag) (t : List Op) : Nat :=
  (t.filter (fun o => o.tag == tg)).length

/-- A trace is well formed as an edit script when each `OK` entry really
matches its two tokens; substitutions, insertions and deletions are
unconstrained. -/
def ValidTrace (t : List Op) : Prop :=
  ∀ o ∈ t, o.tag = Tag.OK → o.refTok = o.hypTok

instance decidableValidTrace (t : List Op) : Decidable (ValidTrace t) :=
  show Decidable (∀ o ∈ t, o.tag = Tag.OK → o.refTok = o.hypTok) from inferInstance

theorem refSide_append (s t : List Op) :
    refSide (s ++ t) = refSide s ++ refSide t := by
  simp [refSide]

theorem hypSide_append (s t : List Op) :
    hypSide (s ++ t) = hypSide s ++ hypSide t := by
  simp [hypSide]

theorem traceCost_append (s t : List Op) :
    traceCost (s ++ t) = traceCost s + traceCost t := by
  simp [traceCost]

theorem countTag_append (tg : Tag) (s t : List Op) :
    countTag tg (s ++ t) = countTag tg s + countTag tg t := by
  simp [countTag]

/-- Result record of `compute_measures_local` (lines 154-162).  The
Python counters `subs`, `ins`, `dels`, `hits` are incremented exactly
when an operation with the corresponding tag is appended to the
alignment (lines 125-149), so they equal the tag counts of the final
trace; the float `wer` of line 153 is modelled as a rational. -/
structure Measures where
  substitutions : Nat
  insertions : Nat
  deletions : Nat
  hits : Nat
  truth_length : Nat
  wer : ℚ
  alignment : List Op
deriving DecidableEq, Repr

/-- `compute_measures_local` (lines 104-162): run the backtrace from
`(n, m)`, read the counters off the trace, and derive WER with the
empty-reference guard of line 153. -/
def compute_measures_local (ref_tokens hyp_tokens : List String) : Measures :=
  let n := ref_tokens.length
  let m := hyp_tokens.length
  let alignment := backtrace ref_tokens hyp_tokens n m
  let subs := countTag Tag.S alignment
  let ins := countTag Tag.I alignment
  let dels := countTag Tag.D alignment
  let hits := countTag Tag.OK alignment
  { substitutions := subs, insertions := ins, deletions := dels, hits := hits,
    truth_length := n,
    wer := if 0 < n then ((subs + ins + dels : Nat) : ℚ) / (n : ℚ) else 0,
    alignment := alignment }

/-- `total_errors` as computed in `main` (line 230). -/
def total_errors (ms : Measures) : Nat :=
  ms.substitutions + ms.insertions + ms.deletions

/-- The edit cost of the backtraced trace from any cell equals the cost
table entry at that cell. -/
theorem traceCost_backtrace_bounded (r h : List String) :
    ∀ N i j, i + j ≤ N → traceCost (backtrace r h i j) = dp r h i j := by
  intro N
  induction N with
  | zero =>
    intro i j hN
    have hi : i = 0 := by omega
    have hj : j = 0 := by omega
    subst hi; subst hj
    simp [backtrace_zero_zero, traceCost, dp_col_zero]
  | succ N ih =>
    intro i j hN
    by_cases h0 : i = 0 ∧ j = 0
    · obtain ⟨rfl, rfl⟩ := h0
      simp [backtrace_zero_zero, traceCost, dp_col_zero]
    · rw [backtrace_step r h i j (by omega)]
      split
      · rename_i hc
        rw [traceCost_append, ih (i - 1) (j - 1) (by omega)]
        simp [traceCost, opCost, hc.2.2.1]
      · split
        · rename_i hc
          rw [traceCost_append, ih i (j - 1) (by omega)]
          simp [traceCost, opCost, hc.2]
        · split
          · rename_i hc
            rw [traceCost_append, ih (i - 1) j (by omega)]
            simp [traceCost, opCost, hc.2]
          · split
            · rename_i hc
              rw [traceCost_append, ih (i - 1) (j - 1) (by omega)]
              simp [traceCost, opCost, hc.2.2]
            · rename_i hc1 hc2 hc3 hc4
              exact absurd (dp_coverage r h i j (by omega)) (by tauto)

theorem traceCost_backtrace (r h : List String) (i j : Nat) :
    traceCost (backtrace r h i j) = dp r h i j :=
  traceCost_backtrace_bounded r h (i + j) i j le_rfl

theorem take_snoc_getD {α : Type} [Inhabited α] (l : List α) (i : Nat)
    (hi : 0 < i) (hle : i ≤ l.length) :
    l.take i = l.take (i - 1) ++ [l.getD (i - 1) default] := by
  obtain ⟨i', rfl⟩ : ∃ i', i = i' + 1 := ⟨i - 1, by omega⟩
  rw [List.take_succ]
  simp only [Nat.add_sub_cancel]
  cases hx : l[i']? with
  | none =>
    rw [List.getElem?_eq_none_iff] at hx
    omega
  | some x =>
    simp [List.getD_eq_getElem?_getD, hx]

/-- Replaying the backtraced trace from cell `(i, j)` reproduces the
first `i` reference tokens on the reference side and the first `j`
hypothesis tokens on the hypothesis side. -/
theorem sides_backtrace_bounded (r h : List String) :
    ∀ N i j, i + j ≤ N → i ≤ r.length → j ≤ h.length →
      refSide (backtrace r h i j) = r.take i ∧
      hypSide (backtrace r h i j) = h.take j := by
  intro N
  induction N with
  | zero =>
    intro i j hN hi hj
    have : i = 0 ∧ j = 0 := by omega
    obtain ⟨rfl, rfl⟩ := this
    simp [backtrace_zero_zero, refSide, hypSide]
  | succ N ih =>
    intro i j hN hi hj
    by_cases h0 : i = 0 ∧ j = 0
    · obtain ⟨rfl, rfl⟩ := h0
      simp [backtrace_zero_zero, refSide, hypSide]
    · rw [backtrace_step r h i j (by omega)]
      have htakeR : 0 < i → r.take i = r.take (i - 1) ++ [r.getD (i - 1) ""] :=
        fun hpos => take_snoc_getD r i hpos hi
      have htakeH : 0 < j → h.take j = h.take (j - 1) ++ [h.getD (j - 1) ""] :=
        fun hpos => take_snoc_getD h j hpos hj
      split
      · rename_i hc
        obtain ⟨ihr, ihh⟩ := ih (i - 1) (j - 1) (by omega) (by omega) (by omega)
        rw [refSide_append, hypSide_append, ihr, ihh]
        constructor
        · rw [htakeR hc.1]; simp [refSide, opRefSide]
        · rw [htakeH hc.2.1]; simp [hypSide, opHypSide]
      · split
        · rename_i hc
          obtain ⟨ihr, ihh⟩ := ih i (j - 1) (by omega) (by omega) (by omega)
          rw [refSide_append, hypSide_append, ihr, ihh]
          constructor
          · simp [refSide, opRefSide]
          · rw [htakeH hc.1]; simp [hypSide, opHypSide]
        · split
          · rename_i hc
            obtain ⟨ihr, ihh⟩ := ih (i - 1) j (by omega) (by omega) (by omega)
            rw [refSide_append, hypSide_append, ihr, ihh]
            constructor
            · rw [htakeR hc.1]; simp [refSide, opRefSide]
            · simp [hypSide, opHypSide]
          · split
            · rename_i hc
              obtain ⟨ihr, ihh⟩ := ih (i - 1) (j - 1) (by omega) (by omega) (by omega)
              rw [refSide_append, hypSide_append, ihr, ihh]
              constructor
              · rw [htakeR hc.1]; simp [refSide, opRefSide]
              · rw [htakeH hc.2.1]; simp [hypSide, opHypSide]
            · rename_i hc1 hc2 hc3 hc4
              rcases dp_coverage r h i j (by omega) with hcov | hcov | hcov | hcov
              · exact absurd hcov hc1
              · exact absurd hcov hc2
              · exact absurd hcov hc3
              · exact absurd hcov hc4

theorem refSide_backtrace (r h : List String) :
    refSide (backtrace r h r.length h.length) = r := by
  have := (sides_backtrace_bounded r h (r.length + h.length) r.length h.length
    le_rfl le_rfl le_rfl).1
  simpa using this

theorem hypSide_backtrace (r h : List String) :
    hypSide (backtrace r h r.length h.length) = h := by
  have := (sides_backtrace_bounded r h (r.length + h.length) r.length h.length
    le_rfl le_rfl le_rfl).2
  simpa using this

theorem validTrace_append {s t : List Op} (hs : ValidTrace s) (ht : ValidTrace t) :
    ValidTrace (s ++ t) := by
  intro o ho
  rcases List.mem_append.mp ho with hmem | hmem
  · exact hs o hmem
  · exact ht o hmem

theorem validTrace_singleton {o : Op} (hok : o.tag = Tag.OK → o.refTok = o.hypTok) :
    ValidTrace [o] := by
  intro o' ho'
  rcases List.mem_singleton.mp ho' with rfl
  exact hok

/-- Every `OK` entry of the backtraced trace matches its two tokens:
the match branch (line 125) fires only when `r[i-1] == h[j-1]`. -/
theorem validTrace_backtrace_bounded (r h : List String) :
    ∀ N i j, i + j ≤ N → ValidTrace (backtrace r h i j) := by
  intro N
  induction N with
  | zero =>
    intro i j hN
    have : i = 0 ∧ j = 0 := by omega
    obtain ⟨rfl, rfl⟩ := this
    intro o ho
    simp [backtrace_zero_zero] at ho
  | succ N ih =>
    intro i j hN
    by_cases h0 : i = 0 ∧ j = 0
    · obtain ⟨rfl, rfl⟩ := h0
      intro o ho
      simp [backtrace_zero_zero] at ho
    · rw [backtrace_step r h i j (by omega)]
      split
      · rename_i hc
        exact validTrace_append (ih (i - 1) (j - 1) (by omega))
          (validTrace_singleton (fun _ => hc.2.2.2))
      · split
        · exact validTrace_append (ih i (j - 1) (by omega))
            (validTrace_singleton (by intro htag; cases htag))
        · split
          · exact validTrace_append (ih (i - 1) j (by omega))
              (validTrace_singleton (by intro htag; cases htag))
          · split
            · exact validTrace_append (ih (i - 1) (j - 1) (by omega))
                (validTrace_singleton (by intro htag; cases htag))
            · split
              · exact validTrace_append (ih (i - 1) j (by omega))
                  (validTrace_singleton (by intro htag; cases htag))
              · exact validTrace_append (ih i (j - 1) (by omega))
                  (validTrace_singleton (by intro htag; cases htag))

theorem validTrace_backtrace (r h : List String) (i j : Nat) :
    ValidTrace (backtrace r h i j) :=
  validTrace_backtrace_bounded r h (i + j) i j le_rfl

theorem countTag_cons (tg : Tag) (o : Op) (t : List Op) :
    countTag tg (o :: t) = (if o.tag = tg then 1 else 0) + countTag tg t := by
  by_cases htg : o.tag = tg
  · simp [countTag, List.filter_cons, htg, Nat.add_comm]
  · simp [countTag, List.filter_cons, htg]

theorem length_eq_sum_counts (t : List Op) :
    t.length = countTag Tag.OK t + countTag Tag.S t +
      countTag Tag.I t + countTag Tag.D t := by
  induction t with
  | nil => simp [countTag]
  | cons o t ih =>
    cases htag : o.tag <;>
      simp only [List.length_cons, countTag_cons, htag, ih] <;>
      simp <;> omega

theorem refSide_length_counts (t : List Op) :
    (refSide t).length = countTag Tag.OK t + countTag Tag.S t + countTag Tag.D t := by
  induction t with
  | nil => simp [refSide, countTag]
  | cons o t ih =>
    have hcons : refSide (o :: t) = opRefSide o ++ refSide t := by simp [refSide]
    rw [hcons]
    cases htag : o.tag <;>
      simp only [opRefSide, htag, countTag_cons, List.length_append, ih] <;>
      simp <;> omega

theorem hypSide_length_counts (t : List Op) :
    (hypSide t).length = countTag Tag.OK t + countTag Tag.S t + countTag Tag.I t := by
  induction t with
  | nil => simp [hypSide, countTag]
  | cons o t ih =>
    have hcons : hypSide (o :: t) = opHypSide o ++ hypSide t := by simp [hypSide]
    rw [hcons]
    cases htag : o.tag <;>
      simp only [opHypSide, htag, countTag_cons, List.length_append, ih] <;>
      simp <;> omega

theorem traceCost_counts (t : List Op) :
    traceCost t = countTag Tag.S t + countTag Tag.I t + countTag Tag.D t := by
  induction t with
  | nil => simp [traceCost, countTag]
  | cons o t ih =>
    have hcons : traceCost (o :: t) = opCost o + traceCost t := by simp [traceCost]
    rw [hcons]
    cases htag : o.tag <;>
      simp only [opCost, htag, countTag_cons, ih] <;>
      simp <;> omega

theorem take_eq_snoc {α : Type} [Inhabited α] {l s : List α} {a : α} {i : Nat}
    (hi : i ≤ l.length) (heq : s ++ [a] = l.take i) :
    0 < i ∧ s = l.take (i - 1) ∧ a = l.getD (i - 1) default := by
  have hpos : 0 < i := by
    rcases Nat.eq_zero_or_pos i with rfl | hpos
    · simp at heq
    · exact hpos
  rw [take_snoc_getD l i hpos hi] at heq
  have hinj := List.append_inj' heq rfl
  exact ⟨hpos, hinj.1, by simpa using hinj.2⟩

/-- Lower bound: no well-formed edit script explaining the prefixes
`r.take i` and `h.take j` can beat the cost table entry `dp[i][j]`. -/
theorem dp_min (r h : List String) (t : List Op) :
    ∀ i j, i ≤ r.length → j ≤ h.length → ValidTrace t →
      refSide t = r.take i → hypSide t = h.take j →
      dp r h i j ≤ traceCost t := by
  induction t using List.reverseRecOn with
  | nil =>
    intro i j hi hj _ hr hh
    have hi0 : i = 0 := by
      rcases List.take_eq_nil_iff.mp hr.symm with heq | heq
      · exact heq
      · simp [heq] at hi; omega
    have hj0 : j = 0 := by
      rcases List.take_eq_nil_iff.mp hh.symm with heq | heq
      · exact heq
      · simp [heq] at hj; omega
    subst hi0; subst hj0
    simp [dp_zero_row, traceCost]
  | append_singleton l o ih =>
    intro i j hi hj hv hr hh
    have hvl : ValidTrace l := fun o' ho' => hv o' (List.mem_append_left _ ho')
    have hco : traceCost (l ++ [o]) = traceCost l + opCost o := by
      rw [traceCost_append]; simp [traceCost]
    rw [refSide_append] at hr
    rw [hypSide_append] at hh
    cases htag : o.tag
    case OK =>
      have htok : o.refTok = o.hypTok := hv o (List.mem_append_right _ (by simp)) htag
      simp only [refSide, opRefSide, htag, reduceCtorEq, if_false, List.map_cons,
        List.map_nil, List.flatten] at hr
      simp only [hypSide, opHypSide, htag, reduceCtorEq, if_false, List.map_cons,
        List.map_nil, List.flatten] at hh
      obtain ⟨hipos, hrl, hra⟩ := take_eq_snoc hi (by simpa using hr)
      obtain ⟨hjpos, hhl, hha⟩ := take_eq_snoc hj (by simpa using hh)
      have h1 : r.getD (i - 1) "" = o.refTok := hra.symm
      have h2 : h.getD (j - 1) "" = o.hypTok := hha.symm
      have hcost : (if r.getD (i - 1) "" = h.getD (j - 1) "" then 0 else 1) = 0 := by
        rw [h1, h2, htok, if_pos rfl]
      have hstep := dp_le_diag r h i j hipos hjpos
      rw [hcost] at hstep
      have hihl := ih (i - 1) (j - 1) (by omega) (by omega) hvl hrl hhl
      rw [hco]
      simp [opCost, htag]
      omega
    case S =>
      simp only [refSide, opRefSide, htag, reduceCtorEq, if_false, List.map_cons,
        List.map_nil, List.flatten] at hr
      simp only [hypSide, opHypSide, htag, reduceCtorEq, if_false, List.map_cons,
        List.map_nil, List.flatten] at hh
      obtain ⟨hipos, hrl, _⟩ := take_eq_snoc hi (by simpa using hr)
      obtain ⟨hjpos, hhl, _⟩ := take_eq_snoc hj (by simpa using hh)
      have hstep := dp_le_sub r h i j hipos hjpos
      have hihl := ih (i - 1) (j - 1) (by omega) (by omega) hvl hrl hhl
      rw [hco]
      simp [opCost, htag]
      omega
    case I =>
      simp only [refSide, opRefSide, htag, if_true, List.map_cons,
        List.map_nil, List.flatten, List.append_nil] at hr
      simp only [hypSide, opHypSide, htag, reduceCtorEq, if_false, List.map_cons,
        List.map_nil, List.flatten] at hh
      obtain ⟨hjpos, hhl, _⟩ := take_eq_snoc hj (by simpa using hh)
      have hstep := dp_le_ins r h i j hjpos
      have hihl := ih i (j - 1) (by omega) (by omega) hvl (by simpa using hr) hhl
      rw [hco]
      simp [opCost, htag]
      omega
    case D =>
      simp only [refSide, opRefSide, htag, reduceCtorEq, if_false, List.map_cons,
        List.map_nil, List.flatten] at hr
      simp only [hypSide, opHypSide, htag, if_true, List.map_cons,
        List.map_nil, List.flatten, List.append_nil] at hh
      obtain ⟨hipos, hrl, _⟩ := take_eq_snoc hi (by simpa using hr)
      have hstep := dp_le_del r h i j hipos
      have hihl := ih (i - 1) j (by omega) (by omega) hvl hrl (by simpa using hh)
      rw [hco]
      simp [opCost, htag]
      omega

/-- Modelled from the spec (§4.3 tie-break policy): walking backward
from `(n, m)`, prefer in order (1) an exact match when the optimal-cost
equality holds and the tokens are equal, (2) an insertion (hypothesis
axis) when it matches the optimal cost, (3) a deletion (reference axis)
when it matches the optimal cost, (4) a substitution only when none of
the above apply.  Unlike the code, there is no safety fallback. -/
def specBacktrace (r h : List String) : Nat → Nat → Nat → List Op
  | 0, _, _ => []
  | fuel + 1, i, j =>
    if i = 0 ∧ j = 0 then []
    else if 0 < i ∧ 0 < j ∧ dp r h i j = dp r h (i - 1) (j - 1) ∧
        r.getD (i - 1) "" = h.getD (j - 1) "" then
      specBacktrace r h fuel (i - 1) (j - 1) ++
        [⟨r.getD (i - 1) "", h.getD (j - 1) "", Tag.OK⟩]
    else if 0 < j ∧ dp r h i j = dp r h i (j - 1) + 1 then
      specBacktrace r h fuel i (j - 1) ++ [⟨"", h.getD (j - 1) "", Tag.I⟩]
    else if 0 < i ∧ dp r h i j = dp r h (i - 1) j + 1 then
      specBacktrace r h fuel (i - 1) j ++ [⟨r.getD (i - 1) "", "", Tag.D⟩]
    else
      specBacktrace r h fuel (i - 1) (j - 1) ++
        [⟨r.getD (i - 1) "", h.getD (j - 1) "", Tag.S⟩]

/-- The spec's backtrace policy run from cell `(i, j)`. -/
def spec_trace (r h : List String) (i j : Nat) : List Op :=
  specBacktrace r h (i + j) i j

theorem backtraceAux_eq_spec (r h : List String) :
    ∀ fuel i j, backtraceAux r h fuel i j = specBacktrace r h fuel i j := by
  intro fuel
  induction fuel with
  | zero => intro i j; rfl
  | succ fuel ih =>
    intro i j
    by_cases h0 : i = 0 ∧ j = 0
    · simp [backtraceAux, specBacktrace, h0]
    · rw [backtraceAux, specBacktrace, if_neg h0, if_neg h0]
      split
      · rw [ih]
      · split
        · rw [ih]
        · split
          · rw [ih]
          · rename_i hc1 hc2 hc3
            rcases dp_coverage r h i j (by omega) with hcov | hcov | hcov | hcov
            · exact absurd hcov hc1
            · exact absurd hcov hc2
            · exact absurd hcov hc3
            · rw [if_pos hcov, ih]

/- ===================== Claim theorems ===================== -/

/-- C1: the total edit count reported by `compute_measures_local`
(substitutions + insertions + deletions) equals the dynamic-program cost
`dp[len R][len H]`, and that cost is the minimum cost of any well-formed
edit script transforming `R` into `H`: the produced trace itself is such
a script, and no valid script realizing `(R, H)` costs less. -/
theorem alignment_realizes_minimum_edit_distance (r h : List String) :
    (compute_measures_local r h).substitutions + (compute_measures_local r h).insertions +
        (compute_measures_local r h).deletions = dp r h r.length h.length ∧
    ValidTrace (compute_measures_local r h).alignment ∧
    refSide (compute_measures_local r h).alignment = r ∧
    hypSide (compute_measures_local r h).alignment = h ∧
    traceCost (compute_measures_local r h).alignment = dp r h r.length h.length ∧
    ∀ t : List Op, ValidTrace t → refSide t = r → hypSide t = h →
      dp r h r.length h.length ≤ traceCost t := by
  refine ⟨?_, ?_, ?_, ?_, ?_, ?_⟩
  · show countTag Tag.S (backtrace r h r.length h.length) +
        countTag Tag.I (backtrace r h r.length h.length) +
        countTag Tag.D (backtrace r h r.length h.length) = dp r h r.length h.length
    rw [← traceCost_counts, traceCost_backtrace]
  · exact validTrace_backtrace r h r.length h.length
  · exact refSide_backtrace r h
  · exact hypSide_backtrace r h
  · exact traceCost_backtrace r h r.length h.length
  · intro t hv hr hh
    exact dp_min r h t r.length h.length le_rfl le_rfl hv
      (by rw [hr, List.take_length]) (by rw [hh, List.take_length])

/-- C1 witness: at `R = ["a"]`, `H = ["b"]` the lower bound applies to
the concrete one-substitution script. -/
theorem alignment_realizes_minimum_edit_distance_witness :
    dp ["a"] ["b"] 1 1 ≤ traceCost [⟨"a", "b", Tag.S⟩] :=
  (alignment_realizes_minimum_edit_distance ["a"] ["b"]).2.2.2.2.2
    [⟨"a", "b", Tag.S⟩] (by decide) (by decide) (by decide)

/-- C2: the counts satisfy `hits + substitutions + deletions = len R`,
`hits + substitutions + insertions = len H`, and the trace length is the
sum of all four counters. -/
theorem alignment_count_invariants (r h : List String) :
    (compute_measures_local r h).hits + (compute_measures_local r h).substitutions +
        (compute_measures_local r h).deletions = r.length ∧
    (compute_measures_local r h).hits + (compute_measures_local r h).substitutions +
        (compute_measures_local r h).insertions = h.length ∧
    (compute_measures_local r h).alignment.length =
      (compute_measures_local r h).hits + (compute_measures_local r h).substitutions +
        (compute_measures_local r h).insertions + (compute_measures_local r h).deletions := by
  have hr := refSide_backtrace r h
  have hh := hypSide_backtrace r h
  have hrlen := refSide_length_counts (backtrace r h r.length h.length)
  have hhlen := hypSide_length_counts (backtrace r h r.length h.length)
  have hlen := length_eq_sum_counts (backtrace r h r.length h.length)
  rw [hr] at hrlen
  rw [hh] at hhlen
  refine ⟨?_, ?_, ?_⟩
  · show countTag Tag.OK (backtrace r h r.length h.length) +
        countTag Tag.S (backtrace r h r.length h.length) +
        countTag Tag.D (backtrace r h r.length h.length) = r.length
    omega
  · show countTag Tag.OK (backtrace r h r.length h.length) +
        countTag Tag.S (backtrace r h r.length h.length) +
        countTag Tag.I (backtrace r h r.length h.length) = h.length
    omega
  · show (backtrace r h r.length h.length).length =
        countTag Tag.OK (backtrace r h r.length h.length) +
        countTag Tag.S (backtrace r h r.length h.length) +
        countTag Tag.I (backtrace r h r.length h.length) +
        countTag Tag.D (backtrace r h r.length h.length)
    omega

/-- C3: the trace is reconstructed by walking the table backward from
`(n, m)` with the strict preference order match, then insertion, then
deletion, then substitution: the code's backtrace (safety fallback
included) coincides with the spec's four-way tie-break policy
`spec_trace` at every cell. -/
theorem backtrace_tie_break_policy (r h : List String) (i j : Nat) :
    backtrace r h i j = spec_trace r h i j :=
  backtraceAux_eq_spec r h (i + j) i j

/-- C4: replaying the returned trace keeping reference-side tokens of
every operation except insertions yields `R`, and keeping
hypothesis-side tokens of every operation except deletions yields `H`. -/
theorem trace_replay_round_trip (r h : List String) :
    refSide (compute_measures_local r h).alignment = r ∧
    hypSide (compute_measures_local r h).alignment = h :=
  ⟨refSide_backtrace r h, hypSide_backtrace r h⟩

/-- C5: `wer = (S + I + D) / truth_length` when `truth_length > 0` and
`wer = 0` when `truth_length = 0` regardless of the hypothesis (in
particular `R = []`, `H = ["a"]` gives `wer = 0` with one insertion);
`total_errors` is the sum of the three error counts. -/
theorem scorer_wer_total_errors (r h : List String) :
    (0 < (compute_measures_local r h).truth_length →
      (compute_measures_local r h).wer =
        (((compute_measures_local r h).substitutions +
          (compute_measures_local r h).insertions +
          (compute_measures_local r h).deletions : Nat) : ℚ) /
          (((compute_measures_local r h).truth_length : Nat) : ℚ)) ∧
    ((compute_measures_local r h).truth_length = 0 →
      (compute_measures_local r h).wer = 0) ∧
    total_errors (compute_measures_local r h) =
      (compute_measures_local r h).substitutions +
        (compute_measures_local r h).insertions +
        (compute_measures_local r h).deletions ∧
    (compute_measures_local [] ["a"]).wer = 0 ∧
    (compute_measures_local [] ["a"]).insertions = 1 := by
  refine ⟨?_, ?_, rfl, by decide, by decide⟩
  · intro hpos
    have hpos' : 0 < r.length := hpos
    show (if 0 < r.length then _ else _) = _
    rw [if_pos hpos']
    rfl
  · intro hzero
    have hz : r.length = 0 := hzero
    show (if 0 < r.length then _ else (0 : ℚ)) = 0
    rw [if_neg (by omega)]

/-- C5 witness: `R = ["a", "b"]`, `H = ["a"]` has positive truth length
and the formula evaluates to `1/2`. -/
theorem scorer_wer_total_errors_witness :
    (compute_measures_local ["a", "b"] ["a"]).wer =
      (((compute_measures_local ["a", "b"] ["a"]).substitutions +
        (compute_measures_local ["a", "b"] ["a"]).insertions +
        (compute_measures_local ["a", "b"] ["a"]).deletions : Nat) : ℚ) /
        (((compute_measures_local ["a", "b"] ["a"]).truth_length : Nat) : ℚ) :=
  (scorer_wer_total_errors ["a", "b"] ["a"]).1 (by decide)

/-- C10: away from the origin one of the four primary backtrace branches
always applies, because `dp[i][j]` equals one of the four candidate
expressions, so the safety fallback is unreachable; and fuel `i + j`
(one unit per iteration, each iteration strictly decreasing `i + j`)
already computes the loop's fixed point, i.e. the loop terminates. -/
theorem backtrace_fallback_unreachable (r h : List String) (i j : Nat)
    (hij : 0 < i ∨ 0 < j) :
    ((0 < i ∧ 0 < j ∧ dp r h i j = dp r h (i - 1) (j - 1) ∧
        r.getD (i - 1) "" = h.getD (j - 1) "") ∨
     (0 < j ∧ dp r h i j = dp r h i (j - 1) + 1) ∨
     (0 < i ∧ dp r h i j = dp r h (i - 1) j + 1) ∨
     (0 < i ∧ 0 < j ∧ dp r h i j = dp r h (i - 1) (j - 1) + 1)) ∧
    (∀ f₁ f₂, i + j ≤ f₁ → i + j ≤ f₂ →
      backtraceAux r h f₁ i j = backtraceAux r h f₂ i j) :=
  ⟨dp_coverage r h i j hij,
   fun f₁ f₂ h₁ h₂ => backtraceAux_fuel r h f₁ f₂ i j h₁ h₂⟩

/-- C10 witness: at cell `(1, 1)` of `R = ["a"]`, `H = ["b"]`, any fuel
at least `2` yields the same trace. -/
theorem backtrace_fallback_unreachable_witness :
    backtraceAux ["a"] ["b"] 2 1 1 = backtraceAux ["a"] ["b"] 7 1 1 :=
  (backtrace_fallback_unreachable ["a"] ["b"] 1 1 (by decide)).2 2 7 (by decide) (by decide)

/- ===================== File discovery (reference resolver, hypothesis
collector) ===================== -/

/-- Python `len` on a string (character count). -/
def charLen (s : String) : Nat := s.toList.length

/-- Python `str.endswith`. -/
def endsWithS (s suf : String) : Bool := List.isSuffixOf suf.toList s.toList

/-- Python `str.startswith`. -/
def startsWithS (s p : String) : Bool := List.isPrefixOf p.toList s.toList

/-- Python `sub in s` (substring containment): the needle occurs as a
prefix of some suffix. -/
def containsS (s needle : String) : Bool :=
  (List.range (s.toList.length + 1)).any
    (fun k => List.isPrefixOf needle.toList (s.toList.drop k))

/-- Python `str.lower` (ASCII case folding suffices for these artifact names). -/
def toLowerS (s : String) : String := String.mk (s.toList.map Char.toLower)

/-- Python slicing `s[:-n]`. -/
def dropRightS (s : String) (n : Nat) : String :=
  String.mk (s.toList.take (s.toList.length - n))

/-- Python slicing `s[n:]`. -/
def dropS (s : String) (n : Nat) : String := String.mk (s.toList.drop n)

/-- `REF_TOKEN_SUFFIXES` (line 16). -/
def REF_TOKEN_SUFFIXES : List String :=
  ["_ref.token.txt", "_reference.token.txt", "_ref.txt"]

/-- `_basename_from_ref_filename` (lines 18-22): strip the first known
reference suffix, else fall back to `os.path.splitext(fname)[0]` (the
part before the last dot). -/
def basename_from_ref_filename (fname : String) : String :=
  match REF_TOKEN_SUFFIXES.find? (fun suf => endsWithS fname suf) with
  | some suf => dropRightS fname (charLen suf)
  | none =>
    if fname.toList.contains '.' then
      String.mk (fname.toList.take ((fname.toList.length - 1) -
        (fname.toList.reverse.indexOf '.')))
    else fname

/-- `build_reference_map` (lines 24-50).  The directory listing is the
list `files` of file names (paths are identified with names; `glob`'s
patterns `*suffix` are suffix filters).  The Python dict with
last-write-wins overwrite is modelled as an association list whose most
recent insertion sits at the head, read through `List.lookup`;
`b not in refs` is `(refs.lookup b).isNone`.  An absent directory
(line 31) yields the empty map. -/
def overwriteStep (bn : String → String) (refs : List (String × String))
    (q : String) : List (String × String) :=
  (bn q, q) :: refs

def ifAbsentStep (bn : String → String) (refs : List (String × String))
    (q : String) : List (String × String) :=
  if (refs.lookup (bn q)).isNone then (bn q, q) :: refs else refs

def build_reference_map (samples_dir_exists : Bool) (files : List String) :
    List (String × String) :=
  if !samples_dir_exists then []
  else
    let refs1 := (files.filter (fun f => endsWithS f "_ref.token.txt")).foldl
      (overwriteStep basename_from_ref_filename) []
    let refs2 := (files.filter (fun f => endsWithS f "_reference.token.txt")).foldl
      (ifAbsentStep basename_from_ref_filename) refs1
    let refs3 := (files.filter (fun f => endsWithS f "_ref.txt")).foldl
      (ifAbsentStep basename_from_ref_filename) refs2
    refs3

theorem lookup_cons {α β : Type} [BEq α] (k k' : α) (v' : β) (l : List (α × β)) :
    List.lookup k ((k', v') :: l) = if k == k' then some v' else List.lookup k l := by
  by_cases hk : k == k'
  · simp [List.lookup, hk]
  · simp [List.lookup, hk]

theorem lookup_mem {α β : Type} [BEq α] [LawfulBEq α] {l : List (α × β)} {k : α} {v : β}
    (hl : l.lookup k = some v) : (k, v) ∈ l := by
  induction l with
  | nil => cases hl
  | cons kv l ih =>
    obtain ⟨k', v'⟩ := kv
    rw [lookup_cons] at hl
    by_cases hk : k == k'
    · rw [if_pos hk] at hl
      obtain rfl := Option.some.inj hl
      obtain rfl := eq_of_beq hk
      exact List.mem_cons_self _ _
    · rw [if_neg hk] at hl
      exact List.mem_cons_of_mem _ (ih hl)

/-- Behaviour of the first (overwriting) pass: a lookup hit comes from
the processed files or from the initial map. -/
theorem foldl_overwrite_lookup (bn : String → String) :
    ∀ (fs : List String) (m : List (String × String)) (b p : String),
      (fs.foldl (overwriteStep bn) m).lookup b = some p →
      (p ∈ fs ∧ bn p = b) ∨ m.lookup b = some p := by
  intro fs
  induction fs with
  | nil => intro m b p hl; exact Or.inr hl
  | cons f fs ih =>
    intro m b p hl
    rw [List.foldl_cons] at hl
    rcases ih _ b p hl with hcase | hcase
    · exact Or.inl ⟨List.mem_cons_of_mem _ hcase.1, hcase.2⟩
    · simp only [overwriteStep] at hcase
      rw [lookup_cons] at hcase
      by_cases hb : b == bn f
      · rw [if_pos hb] at hcase
        obtain rfl := Option.some.inj hcase
        exact Or.inl ⟨List.mem_cons_self _ _, (eq_of_beq hb).symm⟩
      · rw [if_neg hb] at hcase
        exact Or.inr hcase

/-- Files whose basename is not `b` leave the key `b` untouched in the
overwriting pass. -/
theorem foldl_overwrite_untouched (bn : String → String) :
    ∀ (fs : List String) (m : List (String × String)) (b : String),
      (∀ f ∈ fs, bn f ≠ b) →
      (fs.foldl (overwriteStep bn) m).lookup b = m.lookup b := by
  intro fs
  induction fs with
  | nil => intro m b _; rfl
  | cons f fs ih =>
    intro m b hno
    rw [List.foldl_cons, ih _ b (fun g hg => hno g (List.mem_cons_of_mem _ hg))]
    simp only [overwriteStep]
    have hbf : ¬ (b == bn f) = true := by
      simp only [beq_iff_eq]
      exact fun hc => hno f (List.mem_cons_self _ _) hc.symm
    rw [lookup_cons, if_neg hbf]

/-- The overwriting pass records an entry for every basename it sees. -/
theorem foldl_overwrite_exists (bn : String → String) :
    ∀ (fs : List String) (m : List (String × String)) (b : String),
      (∃ f ∈ fs, bn f = b) →
      ∃ p, (fs.foldl (overwriteStep bn) m).lookup b = some p := by
  intro fs
  induction fs with
  | nil =>
    intro m b hex
    obtain ⟨f, hf, _⟩ := hex
    cases hf
  | cons f fs ih =>
    intro m b hex
    rw [List.foldl_cons]
    by_cases hfs : ∃ g ∈ fs, bn g = b
    · exact ih _ b hfs
    · obtain ⟨f', hmem, hbn⟩ := hex
      rcases List.mem_cons.mp hmem with rfl | hi
      · push_neg at hfs
        rw [foldl_overwrite_untouched bn fs _ b hfs]
        simp only [overwriteStep]
        rw [lookup_cons, if_pos (by simp [hbn])]
        exact ⟨f', rfl⟩
      · exact absurd ⟨f', hi, hbn⟩ hfs

/-- One insert-if-absent step never displaces an existing entry. -/
theorem ifAbsentStep_preserve (bn : String → String) (m : List (String × String))
    (q b p : String) (hm : m.lookup b = some p) :
    (ifAbsentStep bn m q).lookup b = some p := by
  simp only [ifAbsentStep]
  split
  · rename_i habs
    rw [lookup_cons, if_neg]
    · exact hm
    · simp only [beq_iff_eq]
      intro hc
      rw [hc] at hm
      rw [hm] at habs
      simp at habs
  · exact hm

/-- The insert-if-absent passes never displace an existing entry. -/
theorem foldl_ifabsent_preserve (bn : String → String) :
    ∀ (fs : List String) (m : List (String × String)) (b p : String),
      m.lookup b = some p →
      (fs.foldl (ifAbsentStep bn) m).lookup b = some p := by
  intro fs
  induction fs with
  | nil => intro m b p hm; exact hm
  | cons f fs ih =>
    intro m b p hm
    rw [List.foldl_cons]
    exact ih _ b p (ifAbsentStep_preserve bn m f b p hm)

/-- A lookup hit after an insert-if-absent pass either predates the pass
or was inserted by it into a previously vacant key. -/
theorem foldl_ifabsent_lookup (bn : String → String) :
    ∀ (fs : List String) (m : List (String × String)) (b p : String),
      (fs.foldl (ifAbsentStep bn) m).lookup b = some p →
      m.lookup b = some p ∨ (p ∈ fs ∧ bn p = b ∧ m.lookup b = none) := by
  intro fs
  induction fs with
  | nil => intro m b p hl; exact Or.inl hl
  | cons f fs ih =>
    intro m b p hl
    rw [List.foldl_cons] at hl
    rcases ih _ b p hl with hcase | hcase
    · simp only [ifAbsentStep] at hcase
      by_cases habs : (m.lookup (bn f)).isNone
      · rw [if_pos habs, lookup_cons] at hcase
        by_cases hb : b == bn f
        · rw [if_pos hb] at hcase
          obtain rfl := Option.some.inj hcase
          refine Or.inr ⟨List.mem_cons_self _ _, (eq_of_beq hb).symm, ?_⟩
          rw [eq_of_beq hb]
          exact Option.isNone_iff_eq_none.mp habs
        · rw [if_neg hb] at hcase
          exact Or.inl hcase
      · rw [if_neg habs] at hcase
        exact Or.inl hcase
    · obtain ⟨hmem, hbn, hnone⟩ := hcase
      simp only [ifAbsentStep] at hnone
      by_cases habs : (m.lookup (bn f)).isNone
      · rw [if_pos habs, lookup_cons] at hnone
        by_cases hb : b == bn f
        · rw [if_pos hb] at hnone
          cases hnone
        · rw [if_neg hb] at hnone
          exact Or.inr ⟨List.mem_cons_of_mem _ hmem, hbn, hnone⟩
      · rw [if_neg habs] at hnone
        exact Or.inr ⟨List.mem_cons_of_mem _ hmem, hbn, hnone⟩

/-- The insert-if-absent passes leave the key populated whenever some
processed file has that basename. -/
theorem foldl_ifabsent_exists (bn : String → String) :
    ∀ (fs : List String) (m : List (String × String)) (b : String),
      (∃ f ∈ fs, bn f = b) →
      ∃ p, (fs.foldl (ifAbsentStep bn) m).lookup b = some p := by
  intro fs
  induction fs with
  | nil =>
    intro m b hex
    obtain ⟨f, hf, _⟩ := hex
    cases hf
  | cons f fs ih =>
    intro m b hex
    rw [List.foldl_cons]
    by_cases hfs : ∃ g ∈ fs, bn g = b
    · exact ih _ b hfs
    · obtain ⟨f', hmem, hbn⟩ := hex
      rcases List.mem_cons.mp hmem with rfl | hi
      · cases hq : (ifAbsentStep bn m f').lookup b with
        | some q => exact ⟨q, foldl_ifabsent_preserve bn fs _ b q hq⟩
        | none =>
          exfalso
          simp only [ifAbsentStep] at hq
          by_cases habs : (m.lookup (bn f')).isNone
          · rw [if_pos habs, lookup_cons, if_pos (by simp [hbn])] at hq
            cases hq
          · rw [if_neg habs] at hq
            rw [hbn] at habs
            rw [hq] at habs
            simp at habs
      · exact absurd ⟨f', hi, hbn⟩ hfs


/-- C7: the reference resolver keeps exactly one artifact per sample
identifier, chosen by the fixed priority tokenized-primary
(`*_ref.token.txt`) over tokenized-alternate (`*_reference.token.txt`)
over raw (`*_ref.txt`); a chosen entry is never displaced by a
lower-priority variant; in particular `x_ref.token.txt` beats
`x_ref.txt`; an absent samples directory yields the empty map. -/
theorem reference_resolver_priority (files : List String) (b : String) :
    build_reference_map false files = [] ∧
    (build_reference_map true ["x_ref.token.txt", "x_ref.txt"]).lookup "x" =
      some "x_ref.token.txt" ∧
    ((∃ f ∈ files, endsWithS f "_ref.token.txt" = true ∧
        basename_from_ref_filename f = b) →
      ∃ p, (build_reference_map true files).lookup b = some p ∧
        endsWithS p "_ref.token.txt" = true ∧ basename_from_ref_filename p = b) ∧
    ((¬ ∃ f ∈ files, endsWithS f "_ref.token.txt" = true ∧
        basename_from_ref_filename f = b) →
      (∃ f ∈ files, endsWithS f "_reference.token.txt" = true ∧
        basename_from_ref_filename f = b) →
      ∃ p, (build_reference_map true files).lookup b = some p ∧
        endsWithS p "_reference.token.txt" = true ∧
        basename_from_ref_filename p = b) ∧
    ((¬ ∃ f ∈ files, (endsWithS f "_ref.token.txt" = true ∨
        endsWithS f "_reference.token.txt" = true) ∧
        basename_from_ref_filename f = b) →
      (∃ f ∈ files, endsWithS f "_ref.txt" = true ∧
        basename_from_ref_filename f = b) →
      ∃ p, (build_reference_map true files).lookup b = some p ∧
        endsWithS p "_ref.txt" = true ∧ basename_from_ref_filename p = b) := by
  have hdef : build_reference_map true files =
      (files.filter (fun f => endsWithS f "_ref.txt")).foldl
        (ifAbsentStep basename_from_ref_filename)
        ((files.filter (fun f => endsWithS f "_reference.token.txt")).foldl
          (ifAbsentStep basename_from_ref_filename)
          ((files.filter (fun f => endsWithS f "_ref.token.txt")).foldl
            (overwriteStep basename_from_ref_filename) [])) := rfl
  refine ⟨rfl, by decide, ?_, ?_, ?_⟩
  · rintro ⟨f, hf, hsuf, hbn⟩
    have hfp : f ∈ files.filter (fun g => endsWithS g "_ref.token.txt") :=
      List.mem_filter.mpr ⟨hf, hsuf⟩
    obtain ⟨p, hp⟩ := foldl_overwrite_exists basename_from_ref_filename
      (files.filter (fun g => endsWithS g "_ref.token.txt")) [] b ⟨f, hfp, hbn⟩
    rcases foldl_overwrite_lookup basename_from_ref_filename _ _ b p hp with
      ⟨hmem, hbnp⟩ | hcontra
    · obtain ⟨hpfiles, hpsuf⟩ := List.mem_filter.mp hmem
      refine ⟨p, ?_, hpsuf, hbnp⟩
      rw [hdef]
      exact foldl_ifabsent_preserve _ _ _ b p
        (foldl_ifabsent_preserve _ _ _ b p hp)
    · cases hcontra
  · rintro hno ⟨f, hf, hsuf, hbn⟩
    have hnone1 : ((files.filter (fun g => endsWithS g "_ref.token.txt")).foldl
        (overwriteStep basename_from_ref_filename) []).lookup b = none := by
      cases hq : ((files.filter (fun g => endsWithS g "_ref.token.txt")).foldl
          (overwriteStep basename_from_ref_filename) []).lookup b with
      | none => rfl
      | some q =>
        exfalso
        rcases foldl_overwrite_lookup basename_from_ref_filename _ _ b q hq with
          ⟨hmem, hbnq⟩ | hcontra
        · obtain ⟨hqf, hqsuf⟩ := List.mem_filter.mp hmem
          exact hno ⟨q, hqf, hqsuf, hbnq⟩
        · cases hcontra
    have hfp : f ∈ files.filter (fun g => endsWithS g "_reference.token.txt") :=
      List.mem_filter.mpr ⟨hf, hsuf⟩
    obtain ⟨p, hp⟩ := foldl_ifabsent_exists basename_from_ref_filename
      (files.filter (fun g => endsWithS g "_reference.token.txt")) _ b ⟨f, hfp, hbn⟩
    rcases foldl_ifabsent_lookup basename_from_ref_filename _ _ b p hp with
      hin1 | ⟨hmem, hbnp, _⟩
    · rw [hnone1] at hin1
      cases hin1
    · obtain ⟨hpfiles, hpsuf⟩ := List.mem_filter.mp hmem
      refine ⟨p, ?_, hpsuf, hbnp⟩
      rw [hdef]
      exact foldl_ifabsent_preserve _ _ _ b p hp
  · rintro hno ⟨f, hf, hsuf, hbn⟩
    have hnone1 : ((files.filter (fun g => endsWithS g "_ref.token.txt")).foldl
        (overwriteStep basename_from_ref_filename) []).lookup b = none := by
      cases hq : ((files.filter (fun g => endsWithS g "_ref.token.txt")).foldl
          (overwriteStep basename_from_ref_filename) []).lookup b with
      | none => rfl
      | some q =>
        exfalso
        rcases foldl_overwrite_lookup basename_from_ref_filename _ _ b q hq with
          ⟨hmem, hbnq⟩ | hcontra
        · obtain ⟨hqf, hqsuf⟩ := List.mem_filter.mp hmem
          exact hno ⟨q, hqf, Or.inl hqsuf, hbnq⟩
        · cases hcontra
    have hnone2 : ((files.filter (fun g => endsWithS g "_reference.token.txt")).foldl
        (ifAbsentStep basename_from_ref_filename)
        ((files.filter (fun g => endsWithS g "_ref.token.txt")).foldl
          (overwriteStep basename_from_ref_filename) [])).lookup b = none := by
      cases hq : ((files.filter (fun g => endsWithS g "_reference.token.txt")).foldl
          (ifAbsentStep basename_from_ref_filename)
          ((files.filter (fun g => endsWithS g "_ref.token.txt")).foldl
            (overwriteStep basename_from_ref_filename) [])).lookup b with
      | none => rfl
      | some q =>
        exfalso
        rcases foldl_ifabsent_lookup basename_from_ref_filename _ _ b q hq with
          hin1 | ⟨hmem, hbnq, _⟩
        · rw [hnone1] at hin1
          cases hin1
        · obtain ⟨hqf, hqsuf⟩ := List.mem_filter.mp hmem
          exact hno ⟨q, hqf, Or.inr hqsuf, hbnq⟩
    have hfp : f ∈ files.filter (fun g => endsWithS g "_ref.txt") :=
      List.mem_filter.mpr ⟨hf, hsuf⟩
    obtain ⟨p, hp⟩ := foldl_ifabsent_exists basename_from_ref_filename
      (files.filter (fun g => endsWithS g "_ref.txt")) _ b ⟨f, hfp, hbn⟩
    rcases foldl_ifabsent_lookup basename_from_ref_filename _ _ b p hp with
      hin2 | ⟨hmem, hbnp, _⟩
    · rw [hnone2] at hin2
      cases hin2
    · obtain ⟨hpfiles, hpsuf⟩ := List.mem_filter.mp hmem
      refine ⟨p, ?_, hpsuf, hbnp⟩
      rw [hdef]
      exact hp

/-- C7 witness: with only `y_reference.token.txt` present, the
tokenized-alternate variant is selected for sample `y`. -/
theorem reference_resolver_priority_witness :
    ∃ p, (build_reference_map true ["y_reference.token.txt"]).lookup "y" = some p ∧
      endsWithS p "_reference.token.txt" = true ∧
      basename_from_ref_filename p = "y" :=
  (reference_resolver_priority ["y_reference.token.txt"] "y").2.2.2.1
    (by decide) (by decide)

/-- Code-point lexicographic order on character lists: Python's string
comparison used by `sorted`. -/
def charListLe : List Char → List Char → Bool
  | [], _ => true
  | _ :: _, [] => false
  | c :: cs, d :: ds =>
    if c.toNat < d.toNat then true
    else if d.toNat < c.toNat then false
    else charListLe cs ds

/-- Python string comparison `a <= b`. -/
def leS (a b : String) : Bool := charListLe a.toList b.toList

def insertSorted (x : String) : List String → List String
  | [] => [x]
  | y :: ys => if leS x y then x :: y :: ys else y :: insertSorted x ys

/-- Python `sorted` on a list of names (insertion sort; the claims do not
depend on the ordering of distinct names beyond determinism, and a
directory listing has no duplicate names). -/
def sortStrings : List String → List String
  | [] => []
  | x :: xs => insertSorted x (sortStrings xs)

/-- The timing/eval exclusion test of line 86, applied to the lowercased
raw model name. -/
def excludedModel (rm : String) : Bool :=
  rm == "times" || endsWithS rm "_times" || startsWithS rm "times" ||
    containsS rm "_times" || containsS rm "_eval" || rm == "time"

/-- One iteration of the `for fname in sorted(os.listdir(out_dir))` body
of `collect_hypotheses_by_model` (lines 62-95): filter to `.txt` files
of this sample, skip reference files, split off the model name, skip
timing/eval artifacts, then record the file — tokenized variants by
overwrite, raw variants only into a vacant slot.  Paths are identified
with file names (the `os.path.join(out_dir, fname)` prefix is  dropped). -/
def hypStep (basename : String) (candidates : List (String × String))
    (fname : String) : List (String × String) :=
  if !(endsWithS (toLowerS fname) ".txt") then candidates
  else if !(startsWithS fname (basename ++ "_")) then candidates
  else if endsWithS fname "_ref.token.txt" || endsWithS fname "_reference.token.txt" ||
      endsWithS fname "_ref.txt" then candidates
  else
    let model_part := dropS fname (charLen (basename ++ "_"))
    if endsWithS model_part ".token.txt" then
      let raw_model_name := dropRightS model_part (charLen ".token.txt")
      if excludedModel (toLowerS raw_model_name) then candidates
      else (raw_model_name, fname) :: candidates
    else if endsWithS model_part ".txt" then
      let raw_model_name := dropRightS model_part (charLen ".txt")
      if excludedModel (toLowerS raw_model_name) then candidates
      else if (candidates.lookup raw_model_name).isNone then
        (raw_model_name, fname) :: candidates
      else candidates
    else candidates

/-- `collect_hypotheses_by_model` (lines 52-97) over a directory listing
`files`; an absent directory yields the empty map (line 59). -/
def collect_hypotheses_by_model (out_dir_exists : Bool) (files : List String)
    (basename : String) : List (String × String) :=
  if !out_dir_exists then []
  else (sortStrings files).foldl (hypStep basename) []

/-- The common filters of lines 63-69: a `.txt` file of this sample that
is not a reference artifact. -/
def hypFilters (basename fname : String) : Bool :=
  endsWithS (toLowerS fname) ".txt" && startsWithS fname (basename ++ "_") &&
    !(endsWithS fname "_ref.token.txt") && !(endsWithS fname "_reference.token.txt") &&
    !(endsWithS fname "_ref.txt")

/-- The model-name part of a hypothesis file name (line 71). -/
def model_part (basename fname : String) : String :=
  dropS fname (charLen (basename ++ "_"))

/-- The raw model name (lines 76-80). -/
def raw_model_name (basename fname : String) : String :=
  if endsWithS (model_part basename fname) ".token.txt" then
    dropRightS (model_part basename fname) (charLen ".token.txt")
  else dropRightS (model_part basename fname) (charLen ".txt")

/-- A tokenized hypothesis candidate for this sample. -/
def isTokenizedCand (basename fname : String) : Bool :=
  hypFilters basename fname && endsWithS (model_part basename fname) ".token.txt"

/-- A raw (non-tokenized) hypothesis candidate for this sample. -/
def isRawCand (basename fname : String) : Bool :=
  hypFilters basename fname && !(endsWithS (model_part basename fname) ".token.txt") &&
    endsWithS (model_part basename fname) ".txt"

theorem hypStep_tokenized (b f : String) (cands : List (String × String))
    (hTok : isTokenizedCand b f = true)
    (hexcl : excludedModel (toLowerS (raw_model_name b f)) = false) :
    hypStep b cands f = (raw_model_name b f, f) :: cands := by
  simp only [isTokenizedCand, hypFilters, model_part, Bool.and_eq_true,
    Bool.not_eq_true'] at hTok
  obtain ⟨⟨⟨⟨⟨h1, h2⟩, h3⟩, h4⟩, h5⟩, h6⟩ := hTok
  simp only [raw_model_name, model_part, h6, if_true] at hexcl
  simp only [hypStep, h1, h2, h3, h4, h5, h6, hexcl, Bool.not_true,
    Bool.false_eq_true, if_false, Bool.or_self, raw_model_name, model_part, if_true]

theorem hypStep_raw_occupied (b f : String) (cands : List (String × String))
    (hRaw : isRawCand b f = true)
    (hocc : (cands.lookup (raw_model_name b f)).isSome = true) :
    hypStep b cands f = cands := by
  simp only [isRawCand, hypFilters, model_part, Bool.and_eq_true,
    Bool.not_eq_true'] at hRaw
  obtain ⟨⟨⟨⟨⟨⟨h1, h2⟩, h3⟩, h4⟩, h5⟩, h6⟩, h7⟩ := hRaw
  simp only [raw_model_name, model_part, h6, Bool.false_eq_true, if_false] at hocc
  have hvac : (cands.lookup (dropRightS (dropS f (charLen (b ++ "_")))
      (charLen ".txt"))).isNone = false := by
    rcases Option.isSome_iff_exists.mp hocc with ⟨q, hq⟩
    rw [hq]
    rfl
  simp only [hypStep, h1, h2, h3, h4, h5, h6, h7, hvac, Bool.not_true,
    Bool.false_eq_true, if_false, Bool.or_self, if_true]
  split <;> rfl

theorem hypStep_raw_vacant (b f : String) (cands : List (String × String))
    (hRaw : isRawCand b f = true)
    (hexcl : excludedModel (toLowerS (raw_model_name b f)) = false)
    (hvac : cands.lookup (raw_model_name b f) = none) :
    hypStep b cands f = (raw_model_name b f, f) :: cands := by
  simp only [isRawCand, hypFilters, model_part, Bool.and_eq_true,
    Bool.not_eq_true'] at hRaw
  obtain ⟨⟨⟨⟨⟨⟨h1, h2⟩, h3⟩, h4⟩, h5⟩, h6⟩, h7⟩ := hRaw
  simp only [raw_model_name, model_part, h6, Bool.false_eq_true, if_false] at hexcl hvac
  simp only [hypStep, h1, h2, h3, h4, h5, h6, h7, hexcl, hvac, Bool.not_true,
    Bool.false_eq_true, if_false, Bool.or_self, if_true, Option.isNone_none,
    raw_model_name, model_part]

/-- Pairs recorded by the collector: the model key with its accepted,
non-excluded artifact. -/
def acceptedPair (basename mdl fname : String) : Prop :=
  (isTokenizedCand basename fname = true ∨ isRawCand basename fname = true) ∧
  mdl = raw_model_name basename fname ∧
  excludedModel (toLowerS (raw_model_name basename fname)) = false

theorem hypStep_invariant (b f : String) (cands : List (String × String))
    (hinv : ∀ kv ∈ cands, acceptedPair b kv.1 kv.2) :
    ∀ kv ∈ hypStep b cands f, acceptedPair b kv.1 kv.2 := by
  intro kv hkv
  simp only [hypStep] at hkv
  split at hkv
  · exact hinv kv hkv
  · split at hkv
    · exact hinv kv hkv
    · split at hkv
      · exact hinv kv hkv
      · rename_i hc1 hc2 hc3
        split at hkv
        · rename_i hc4
          split at hkv
          · exact hinv kv hkv
          · rename_i hc5
            rcases List.mem_cons.mp hkv with rfl | hmem
            · refine ⟨Or.inl ?_, ?_, ?_⟩
              · simp only [isTokenizedCand, hypFilters, model_part, Bool.and_eq_true,
                  Bool.not_eq_true']
                simp only [Bool.not_eq_true', Bool.not_eq_false] at hc1 hc2
                simp only [Bool.or_eq_true, not_or, Bool.not_eq_true] at hc3
                exact ⟨⟨⟨⟨⟨hc1, hc2⟩, hc3.1.1⟩, hc3.1.2⟩, hc3.2⟩, hc4⟩
              · simp only [raw_model_name, model_part, hc4, if_true]
              · simp only [raw_model_name, model_part, hc4, if_true]
                simpa using hc5
            · exact hinv kv hmem
        · rename_i hc4
          split at hkv
          · rename_i hc5
            split at hkv
            · exact hinv kv hkv
            · rename_i hc6
              split at hkv
              · rcases List.mem_cons.mp hkv with rfl | hmem
                · refine ⟨Or.inr ?_, ?_, ?_⟩
                  · simp only [isRawCand, hypFilters, model_part, Bool.and_eq_true,
                      Bool.not_eq_true']
                    simp only [Bool.not_eq_true', Bool.not_eq_false] at hc1 hc2
                    simp only [Bool.or_eq_true, not_or, Bool.not_eq_true] at hc3
                    simp only [Bool.not_eq_true] at hc4
                    exact ⟨⟨⟨⟨⟨⟨hc1, hc2⟩, hc3.1.1⟩, hc3.1.2⟩, hc3.2⟩, hc4⟩, hc5⟩
                  · simp only [raw_model_name, model_part, hc4, Bool.false_eq_true,
                      if_false]
                  · simp only [raw_model_name, model_part, hc4, Bool.false_eq_true,
                      if_false]
                    simpa using hc6
                · exact hinv kv hmem
              · exact hinv kv hkv
          · exact hinv kv hkv

theorem foldl_hypStep_invariant (b : String) :
    ∀ (fs : List String) (cands : List (String × String)),
      (∀ kv ∈ cands, acceptedPair b kv.1 kv.2) →
      ∀ kv ∈ fs.foldl (hypStep b) cands, acceptedPair b kv.1 kv.2 := by
  intro fs
  induction fs with
  | nil => intro cands hinv kv hkv; exact hinv kv hkv
  | cons f fs ih =>
    intro cands hinv kv hkv
    rw [List.foldl_cons] at hkv
    exact ih _ (hypStep_invariant b f cands hinv) kv hkv

/-- C8: per model identifier the collector records at most one artifact
(a map): a tokenized artifact always overrides whatever was recorded
before, a raw artifact is accepted only into a vacant slot and leaves an
occupied slot untouched; in particular, with both `x_m1.txt` and
`x_m1.token.txt` present, `x_m1.token.txt` is selected for model `m1`. -/
theorem hypothesis_collector_preference (basename fname : String)
    (cands : List (String × String)) :
    (isTokenizedCand basename fname = true →
      excludedModel (toLowerS (raw_model_name basename fname)) = false →
      (hypStep basename cands fname).lookup (raw_model_name basename fname) =
        some fname) ∧
    (isRawCand basename fname = true →
      ((cands.lookup (raw_model_name basename fname)).isSome = true →
        hypStep basename cands fname = cands) ∧
      (excludedModel (toLowerS (raw_model_name basename fname)) = false →
        cands.lookup (raw_model_name basename fname) = none →
        (hypStep basename cands fname).lookup (raw_model_name basename fname) =
          some fname)) ∧
    (collect_hypotheses_by_model true ["x_m1.txt", "x_m1.token.txt"] "x").lookup "m1" =
      some "x_m1.token.txt" := by
  refine ⟨?_, ?_, by decide⟩
  · intro hTok hexcl
    rw [hypStep_tokenized basename fname cands hTok hexcl, lookup_cons,
      if_pos (by simp)]
  · intro hRaw
    refine ⟨fun hocc => hypStep_raw_occupied basename fname cands hRaw hocc,
      fun hexcl hvac => ?_⟩
    rw [hypStep_raw_vacant basename fname cands hRaw hexcl hvac, lookup_cons,
      if_pos (by simp)]

/-- C8 witness: a concrete tokenized artifact overrides a previously
recorded raw artifact for the same model. -/
theorem hypothesis_collector_preference_witness :
    (hypStep "x" [("m1", "x_m1.txt")] "x_m1.token.txt").lookup
      (raw_model_name "x" "x_m1.token.txt") = some "x_m1.token.txt" :=
  (hypothesis_collector_preference "x" "x_m1.token.txt" [("m1", "x_m1.txt")]).1
    (by decide) (by decide)

/-- C9: a selected hypothesis artifact never carries a reference-file
suffix and its model name never carries a timing/eval marker
(case-insensitively); in particular `x_times.txt` is never selected for
any model. -/
theorem hypothesis_collector_exclusions (files : List String)
    (basename mdl p : String) :
    ((collect_hypotheses_by_model true files basename).lookup mdl = some p →
      endsWithS p "_ref.token.txt" = false ∧
      endsWithS p "_reference.token.txt" = false ∧
      endsWithS p "_ref.txt" = false ∧
      excludedModel (toLowerS (raw_model_name basename p)) = false ∧
      mdl = raw_model_name basename p) ∧
    collect_hypotheses_by_model true ["x_times.txt"] "x" = [] := by
  refine ⟨?_, by decide⟩
  intro hl
  have hmem : (mdl, p) ∈ collect_hypotheses_by_model true files basename :=
    lookup_mem hl
  have hacc : acceptedPair basename mdl p := by
    have hcol : collect_hypotheses_by_model true files basename =
        (sortStrings files).foldl (hypStep basename) [] := rfl
    rw [hcol] at hmem
    exact foldl_hypStep_invariant basename (sortStrings files) []
      (by intro kv hkv; cases hkv) (mdl, p) hmem
  obtain ⟨hcand, hmdl, hexcl⟩ := hacc
  have hfilters : hypFilters basename p = true := by
    rcases hcand with hc | hc
    · simp only [isTokenizedCand, Bool.and_eq_true] at hc
      exact hc.1
    · simp only [isRawCand, Bool.and_eq_true] at hc
      exact hc.1.1
  simp only [hypFilters, Bool.and_eq_true, Bool.not_eq_true'] at hfilters
  exact ⟨hfilters.1.1.2, hfilters.1.2, hfilters.2, hexcl, hmdl⟩

/-- C9 witness: with only `x_times.txt` in the directory, no model maps
to it (the collector yields the empty map, so any lookup misses). -/
theorem hypothesis_collector_exclusions_witness :
    endsWithS "x_m2.token.txt" "_ref.token.txt" = false ∧
    excludedModel (toLowerS (raw_model_name "x" "x_m2.token.txt")) = false :=
  ⟨((hypothesis_collector_exclusions ["x_m2.token.txt"] "x" "m2" "x_m2.token.txt").1
      (by decide)).1,
   ((hypothesis_collector_exclusions ["x_m2.token.txt"] "x" "m2" "x_m2.token.txt").1
      (by decide)).2.2.2.1⟩

/- ===================== Per-pair loop of `main` (error handling) ===== -/

/-- Splitting on whitespace runs with no empty pieces: Python
`str.split()` with no arguments (the leading `strip()` of line 101 is
absorbed, since `split()` already ignores leading and trailing
whitespace). -/
def splitWsAux : List Char → List Char → List String
  | [], acc => if acc.isEmpty then [] else [String.mk acc.reverse]
  | c :: cs, acc =>
    if c.isWhitespace then
      if acc.isEmpty then splitWsAux cs []
      else String.mk acc.reverse :: splitWsAux cs []
    else splitWsAux cs (c :: acc)

/-- `read_tokens` (lines 99-102) against an abstract filesystem `fs`
mapping a path to its contents, or to `none` when the file is unreadable
(in Python, `open` raises `OSError`). -/
def read_tokens (fs : String → Option String) (path : String) :
    Option (List String) :=
  (fs path).map (fun txt => splitWsAux txt.toList [])

/-- One (sample, model, reference path, hypothesis path) work item of
the evaluation loop. -/
structure PairSpec where
  basename : String
  model : String
  refPath : String
  hypPath : String
deriving DecidableEq, Repr

/-- The body of the per-pair loop (lines 224-237): read both token
files and compute the measures.  `none` models an exception raised
while processing the pair — `main` has no `try`/`except` around the
loop body, so a raised exception is not converted into a skip. -/
def evalPair (fs : String → Option String) (p : PairSpec) :
    Option (String × String × Measures) :=
  match read_tokens fs p.refPath, read_tokens fs p.hypPath with
  | some rt, some ht => some (p.basename, p.model, compute_measures_local rt ht)
  | _, _ => none

/-- The per-pair loop of `main` (lines 218-237) over the worklist: with
no exception handler in `main`, a failure in one pair propagates and
aborts the whole run (no further pair is processed and no result list
is produced). -/
def mainLoop (fs : String → Option String) :
    List PairSpec → Option (List (String × String × Measures))
  | [] => some []
  | p :: ps =>
    match evalPair fs p with
    | none => none
    | some row => (mainLoop fs ps).map (fun rows => row :: rows)

/-- Filesystem for the C6 counterexample: the first pair's hypothesis
file `h1` is unreadable, everything else is fine. -/
def fsC6 : String → Option String := fun path =>
  if path = "r1" then some "a"
  else if path = "r2" then some "b"
  else if path = "h2" then some "b"
  else none

/-- C6 counterexample: with two pairs where only the first has an
unreadable artifact, the run produces no results at all — the second
pair, which evaluates fine on its own, is not processed.  This refutes
the claim that an I/O error on one pair causes only that pair to be
skipped and never aborts the processing of the other pairs. -/
theorem io_error_skips_only_pair_counterexample :
    evalPair fsC6 ⟨"s1", "m", "r1", "h1"⟩ = none ∧
    evalPair fsC6 ⟨"s2", "m", "r2", "h2"⟩ ≠ none ∧
    mainLoop fsC6 [⟨"s1", "m", "r1", "h1"⟩, ⟨"s2", "m", "r2", "h2"⟩] = none := by
  refine ⟨rfl, ?_, rfl⟩
  intro hcontra
  cases hcontra

/-- C6 (amended): an I/O error on one (sample, model) pair is not caught
anywhere in `main`; the exception propagates and aborts the entire run,
so no result is produced for any pair (only the "no hypothesis files"
resolution miss of line 221-223 is skipped with a warning). -/
theorem io_error_aborts_run (fs : String → Option String)
    (pairs : List PairSpec) (p : PairSpec)
    (hp : p ∈ pairs) (hfail : evalPair fs p = none) :
    mainLoop fs pairs = none := by
  induction pairs with
  | nil => cases hp
  | cons q qs ih =>
    rcases List.mem_cons.mp hp with rfl | hmem
    · simp [mainLoop, hfail]
    · cases hq : evalPair fs q with
      | none => simp [mainLoop, hq]
      | some row => simp [mainLoop, hq, ih hmem]

/-- C6 amended-claim witness at the concrete failing filesystem. -/
theorem io_error_aborts_run_witness :
    mainLoop fsC6 [⟨"s1", "m", "r1", "h1"⟩, ⟨"s2", "m", "r2", "h2"⟩] = none :=
  io_error_aborts_run fsC6 [⟨"s1", "m", "r1", "h1"⟩, ⟨"s2", "m", "r2", "h2"⟩]
    ⟨"s1", "m", "r1", "h1"⟩ (by decide) (by decide)

end EvaluatePipeline
